import Mathlib

/-!
Shallow embedding of the SINS-VSC Reference Index & Typed-Cache Resolution Engine
(largeBIGsnooze/SINS-VSC), together with proofs about the claims on its behaviour.

The embedding translates, from the TypeScript source:
* the Node.js path helpers the source uses (`path.basename`, `path.extname`,
  `split(".")[0]`, `String.prototype.endsWith`);
* the JSON AST shape of vscode-json-languageservice as consumed by the source
  (`JsonAST.findNodes`, `JsonAST.isWithinSchemaNode`);
* `SinsLanguageServer.validatePointers`, `validateTextDocument`, `getContext`,
  `onDidChangeContent`, `onCompletion` (src/unnamed/part_003);
* `WorkspaceManager.findFiles` (src/unnamed/part_004);
* `CacheManager` (packages/server/src/cache.ts), `EntityManifestManager` and the
  completion-side `CacheManager`/`CompletionManager` (packages/server/src/manifest.ts);
* `IndexManager.rebuildIndex`/`addToIndex` (packages/server/src/data-manager.ts).

File paths are modelled as lists of path components relative to the searched root;
JavaScript `Set<string>` objects are modelled as duplicate-free lists in insertion
order; JavaScript `Map`s as association lists in insertion order.  Promise
rejections (thrown `TypeError`s, failed reads) are modelled with `Except Unit`.
-/

namespace SINS

/-! ### Node.js string/path helpers -/

/-- JS `s.endsWith(suf)`. -/
def endsWithStr (s suf : String) : Bool := suf.data.isSuffixOf s.data

/-- The suffix of a character list starting at its last `'.'`, if any. -/
def fromLastDot : List Char → Option (List Char)
  | [] => Option.none
  | c :: cs =>
    match fromLastDot cs with
    | some e => some e
    | Option.none => if c = '.' then some (c :: cs) else Option.none

/-- Node `path.extname` applied to a base name: the text from the last `'.'` to the end,
and `""` when there is no dot or when the only dot is the leading character (hidden
files such as `".unit"` have no extension).  (The special names `"."`/`".."` never occur
as directory entries, so their Node special-casing is irrelevant here.) -/
def extname (s : String) : String :=
  match fromLastDot s.data with
  | Option.none => ""
  | some e => if e.length = s.data.length then "" else ⟨e⟩

/-- Node `path.basename(name, ext)` on a base name: strips `ext` when it is a nonempty
proper suffix of `name` (Node leaves the name unchanged when `ext` equals the whole
name). -/
def stripExt (s ext : String) : String :=
  if ext ≠ "" ∧ ext.data.isSuffixOf s.data ∧ ext.data.length < s.data.length then
    ⟨s.data.take (s.data.length - ext.data.length)⟩
  else s

/-- JS `fileName.split(".")[0]`: the text before the first `'.'`. -/
def takeBeforeDot (s : String) : String := ⟨s.data.takeWhile (fun c => c ≠ '.')⟩

/-- A file path relative to the workspace root, as its list of components. -/
abbrev FilePath' := List String

/-- Node `path.basename` of a component path: its last component. -/
def baseNameOf (p : FilePath') : String := p.getLastD ""

/-! ### The JSON AST, as consumed from vscode-json-languageservice -/

/-- The JS `value` field of an AST node: a string, the `null` literal, absent
(`undefined`, as on object/array/property nodes), or some other scalar rendered by JS
string interpolation as `txt`. -/
inductive JsonValue where
  | vstr (s : String)
  | vnull
  | vabsent
  | vother (txt : String)
deriving DecidableEq

mutual
/-- An AST node: scalar leaves, arrays, objects and property nodes, each carrying its
source offset and length.  A property's key node is inlined (key offset/length/text). -/
inductive JsonNode where
  | leaf (offset length : Nat) (value : JsonValue)
  | arr (offset length : Nat) (items : JsonList)
  | obj (offset length : Nat) (props : JsonList)
  | prop (offset length keyOffset keyLength : Nat) (key : String) (valueNode : Option JsonNode)
/-- A list of AST nodes (children of an array/object). -/
inductive JsonList where
  | nil
  | cons (hd : JsonNode) (tl : JsonList)
end

def JsonNode.offset : JsonNode → Nat
  | .leaf o _ _ => o
  | .arr o _ _ => o
  | .obj o _ _ => o
  | .prop o _ _ _ _ _ => o

def JsonNode.length : JsonNode → Nat
  | .leaf _ l _ => l
  | .arr _ l _ => l
  | .obj _ l _ => l
  | .prop _ l _ _ _ _ => l

/-- The JS `node.value` field: present on scalar leaves, `undefined` on arrays, objects
and properties. -/
def JsonNode.jsValue : JsonNode → JsonValue
  | .leaf _ _ v => v
  | _ => .vabsent

/-- The `valueNode` field of a property node (`undefined` on other node kinds). -/
def JsonNode.propValueNode : JsonNode → Option JsonNode
  | .prop _ _ _ _ _ v => v
  | _ => Option.none

/-! ### Schema matches and pointer metadata (`schema.ts`, `getMatchingSchemas`) -/

/-- `PointerType` from packages/server/src/schema.ts. -/
inductive PointerType where
  | none
  | brushes
  | textures
  | localized_text
  | beam_effects
  | action_data_sources
  | particle_effects
  | units
  | buffs
  | unit_skins
  | npc_rewards
  | action_value_ids
  | research_subjects
  | abilities
  | unit_items
  | buff_unit_factory_modifiers
  | buff_unit_modifiers
deriving DecidableEq

/-- A subschema property definition, carrying the injected pointer annotation when the
JS object has a `pointer` field. -/
structure SchemaProp where
  pointer : Option PointerType
deriving DecidableEq

/-- A subschema: its `properties` map (key → property definition, in insertion order),
absent when the subschema has no `properties` field. -/
structure SchemaModel where
  properties : Option (List (String × SchemaProp))
deriving DecidableEq

/-- One result of `getMatchingSchemas`: a subschema paired with the source region
(offset, length) of the AST node it governs. -/
structure SchemaMatch where
  schema : SchemaModel
  node : Nat × Nat
deriving DecidableEq

/-- `JsonAST.isWithinSchemaNode` (packages/server/src/json-ast.ts):
`offset >= node.offset && offset <= node.offset + node.length`. -/
def JsonAST.isWithinSchemaNode (offset : Nat) (node : Nat × Nat) : Bool :=
  decide (node.1 ≤ offset) && decide (offset ≤ node.1 + node.2)

mutual
/-- `JsonAST.findNodes`: every property node whose key equals `key`, in document order
(a property is pushed before its children are visited).  Recursing into a property's
key node is omitted: key nodes are string leaves and can contain no property. -/
def JsonAST.findNodes (key : String) : JsonNode → List JsonNode
  | .leaf _ _ _ => []
  | .arr _ _ items => JsonAST.findNodesL key items
  | .obj _ _ props => JsonAST.findNodesL key props
  | .prop o l ko kl k v =>
    (if k = key then [JsonNode.prop o l ko kl k v] else []) ++
      (match v with
        | some n => JsonAST.findNodes key n
        | Option.none => [])
def JsonAST.findNodesL (key : String) : JsonList → List JsonNode
  | .nil => []
  | .cons n ns => JsonAST.findNodes key n ++ JsonAST.findNodesL key ns
end

/-- `JsonAST.findNodes` as called on `jsonDocument.root`, which may be `undefined`. -/
def JsonAST.findNodesRoot (key : String) : Option JsonNode → List JsonNode
  | Option.none => []
  | some n => JsonAST.findNodes key n

/-! ### The completion-side cache (`completion.ts` `Cache`) and diagnostics -/

/-- The fixed categories of the completion-side cache object. -/
inductive Cat where
  | textures
  | localized_text
  | brushes
  | unit_skins
deriving DecidableEq

/-- The completion-side cache: one set of identifiers per category (a plain JS object
with four fixed `Set<string>` fields). -/
abbrev CMCache := Cat → List String

/-- JS `Set<string>.add`: insertion-order, duplicate-free. -/
def addItem (s : List String) (x : String) : List String :=
  if s.contains x then s else s ++ [x]

/-- The contents of a `Set<string>` built by adding `items` in order to an empty set. -/
def fromItems (items : List String) : List String := items.foldl addItem []

/-- A diagnostic produced by the cross-reference validator: the node's source range
(as offsets) and its message.  (Severity and source are constants in the source and
are omitted.) -/
structure Diag where
  startOffset : Nat
  endOffset : Nat
  message : String
deriving DecidableEq

def locMsg (v : String) : String := "- no localisation key found for: \"" ++ v ++ "\"."
def brushMsg (v : String) : String := "- no texture found for: \"" ++ v ++ "\"."
def skinMsg (v : String) : String := "- no unit_skin found for: \"" ++ v ++ "\"."

/-- JS `Set<string>.has(value)` where `value` is a node's JS value: only string values
can be members. -/
def hasVal (set : List String) : JsonValue → Bool
  | .vstr s => set.contains s
  | _ => false

/-- JS template-literal rendering of a node value (`${value}`). -/
def JsonValue.render : JsonValue → String
  | .vstr s => s
  | .vnull => "null"
  | .vabsent => "undefined"
  | .vother t => t

/-! ### `SinsLanguageServer.validatePointers` (src/unnamed/part_003) -/

/-- The `switch (pointer)` of `walk`: one diagnostic at the node's range when its value
is missing from the category's cache; pointer kinds without a case produce nothing. -/
def SinsLanguageServer.checkValue (cache : CMCache) (o l : Nat) (v : JsonValue) :
    PointerType → List Diag
  | .localized_text =>
    if hasVal (cache .localized_text) v then [] else [⟨o, o + l, locMsg v.render⟩]
  | .brushes =>
    if hasVal (cache .brushes) v then [] else [⟨o, o + l, brushMsg v.render⟩]
  | .unit_skins =>
    if hasVal (cache .unit_skins) v then [] else [⟨o, o + l, skinMsg v.render⟩]
  | _ => []

mutual
/-- The inner `walk` of `validatePointers`: skips `null` literals, recurses through
arrays, and otherwise checks the node's value against the pointer's cache. -/
def SinsLanguageServer.walk (cache : CMCache) (ptr : PointerType) (n : JsonNode) :
    List Diag :=
  if n.jsValue = JsonValue.vnull then []
  else
    match n with
    | .arr _ _ items => SinsLanguageServer.walkL cache ptr items
    | m => SinsLanguageServer.checkValue cache m.offset m.length m.jsValue ptr
def SinsLanguageServer.walkL (cache : CMCache) (ptr : PointerType) : JsonList → List Diag
  | .nil => []
  | .cons n ns =>
    SinsLanguageServer.walk cache ptr n ++ SinsLanguageServer.walkL cache ptr ns
end

/-- `walk` as invoked on `node.valueNode`, which may be `undefined`. -/
def SinsLanguageServer.walkValueNode (cache : CMCache) (ptr : PointerType) :
    Option JsonNode → List Diag
  | Option.none => []
  | some n => SinsLanguageServer.walk cache ptr n

/-- `SinsLanguageServer.validatePointers`: for every schema match with a `properties`
map, for every property definition carrying a pointer annotation, find every
same-named property node in the document, keep those whose offset lies within the
match's region, and walk their value nodes. -/
def SinsLanguageServer.validatePointers (root : Option JsonNode)
    (schemas : List SchemaMatch) (cache : CMCache) : List Diag :=
  schemas.flatMap (fun schemaMatch =>
    match schemaMatch.schema.properties with
    | Option.none => []
    | some props =>
      props.flatMap (fun kv =>
        match kv.2.pointer with
        | Option.none => []
        | some ptr =>
          (JsonAST.findNodesRoot kv.1 root).flatMap (fun node =>
            if JsonAST.isWithinSchemaNode node.offset schemaMatch.node then
              SinsLanguageServer.walkValueNode cache ptr node.propValueNode
            else [])))

/-- `validateTextDocument`: the delegated generic schema diagnostics (a collaborator,
taken as a parameter) concatenated with the cross-reference diagnostics. -/
def SinsLanguageServer.validateTextDocument (schemaDiags : List Diag)
    (root : Option JsonNode) (schemas : List SchemaMatch) (cache : CMCache) : List Diag :=
  schemaDiags ++ SinsLanguageServer.validatePointers root schemas cache

/-! ### `SinsLanguageServer.getContext` -/

/-- Ancestor frames of an AST node, innermost first; these model the `parent` pointers
of the vscode JSON AST. -/
inductive Frame where
  | inArr
  | inObj
  | inPropKey (key : String)
  | inPropVal (key : String)
deriving DecidableEq

/-- An AST node location: the node's offset/length, its own key when the node is itself
a property node, and its ancestor chain. -/
structure Loc where
  offset : Nat
  length : Nat
  selfKey : Option String
  chain : List Frame
deriving DecidableEq

mutual
/-- Every (node, ancestor-chain) location of a document, as reachable through
`getNodeFromOffset` plus `parent` pointers. -/
def locationsOf (ch : List Frame) : JsonNode → List Loc
  | .leaf o l _ => [⟨o, l, Option.none, ch⟩]
  | .arr o l items => ⟨o, l, Option.none, ch⟩ :: locationsOfL (.inArr :: ch) items
  | .obj o l props => ⟨o, l, Option.none, ch⟩ :: locationsOfL (.inObj :: ch) props
  | .prop o l ko kl k v =>
    ⟨o, l, some k, ch⟩ :: ⟨ko, kl, Option.none, .inPropKey k :: ch⟩ ::
      (match v with
        | some n => locationsOf (.inPropVal k :: ch) n
        | Option.none => [])
def locationsOfL (ch : List Frame) : JsonList → List Loc
  | .nil => []
  | .cons n ns => locationsOf ch n ++ locationsOfL ch ns
end

/-- Whether the node is directly the key node of its parent property
(`node.parent?.type === "property" && node === node.parent.keyNode`). -/
def Loc.isParentKeyNode (l : Loc) : Bool :=
  match l.chain with
  | Frame.inPropKey _ :: _ => true
  | _ => false

/-- The while-loop of `getContext`: the key of the nearest enclosing node of `property`
kind (the node itself when it is a property). -/
def Loc.owningKey (l : Loc) : Option String :=
  match l.selfKey with
  | some k => some k
  | Option.none =>
    l.chain.findSome? (fun f =>
      match f with
      | .inPropKey k => some k
      | .inPropVal k => some k
      | _ => Option.none)

/-- The schema loop of `getContext`.  A covering match whose `properties` map exists but
lacks the key makes the JS test `"pointer" in props[key]` throw a `TypeError` (`in`
applied to `undefined`); that is the `Except.error` case. -/
def SinsLanguageServer.getContextLoop (offset : Nat) (key : String) :
    List SchemaMatch → Except Unit PointerType
  | [] => Except.ok PointerType.none
  | schemaMatch :: rest =>
    if !(JsonAST.isWithinSchemaNode offset schemaMatch.node) then
      SinsLanguageServer.getContextLoop offset key rest
    else
      match schemaMatch.schema.properties with
      | Option.none => SinsLanguageServer.getContextLoop offset key rest
      | some props =>
        match props.lookup key with
        | Option.none => Except.error ()
        | some schemaProp =>
          match schemaProp.pointer with
          | Option.none => SinsLanguageServer.getContextLoop offset key rest
          | some p => Except.ok p

/-- `SinsLanguageServer.getContext`: classify the node at a location against the schema
matches; `PointerType.none` when the node is missing, is a property key, or has no
property ancestor; otherwise the first covering match's annotation for the owning key. -/
def SinsLanguageServer.getContext (node : Option Loc) (schemas : List SchemaMatch) :
    Except Unit PointerType :=
  match node with
  | Option.none => Except.ok PointerType.none
  | some l =>
    if l.isParentKeyNode then Except.ok PointerType.none
    else
      match l.owningKey with
      | Option.none => Except.ok PointerType.none
      | some key => SinsLanguageServer.getContextLoop l.offset key schemas

/-! ### `CacheManager` (packages/server/src/cache.ts): the typed cache map -/

/-- The `Map<keyof CacheType, Set<string>>` backing `CacheManager`, as an association
list in insertion order whose values are insertion-ordered duplicate-free lists. -/
abbrev CacheMap := List (String × List String)

/-- `CacheManager.set(cache, items)`: create the entry when absent, then clear it and
insert every given item. -/
def CacheManager.set (m : CacheMap) (cache : String) (items : List String) : CacheMap :=
  let m' := if m.any (fun e => e.1 = cache) then m else m ++ [(cache, [])]
  m'.map (fun e => if e.1 = cache then (e.1, fromItems items) else e)

/-- The set returned by `CacheManager.get(cache)` (which creates an empty set when the
entry is absent). -/
def CacheManager.getVal (m : CacheMap) (cache : String) : List String :=
  (m.lookup cache).getD []

/-- `CacheManager.size()`: the sum of all category set sizes. -/
def CacheManager.size (m : CacheMap) : Nat := (m.map (fun e => e.2.length)).sum

/-! ### The file system and `WorkspaceManager.findFiles` (src/unnamed/part_004) -/

/-- The JSON content of a data file, pre-parsed: an object with an optional `ids` string
array and its list of key names, or content that `JSON.parse` rejects. -/
inductive FileData where
  | jobj (ids : Option (List String)) (keys : List String)
  | notJson
deriving DecidableEq

mutual
/-- A directory entry: a file with its content, or a subdirectory. -/
inductive FsEntry where
  | file (name : String) (content : FileData)
  | dir (name : String) (entries : FsList)
/-- Directory contents in `readdir` order. -/
inductive FsList where
  | nil
  | cons (e : FsEntry) (es : FsList)
end

/-- `WorkspaceManager.searchMaxDepth`. -/
def WorkspaceManager.searchMaxDepth : Nat := 5

/-- `WorkspaceManager.ignoreFolders`. -/
def WorkspaceManager.ignoreFolders : List String := [".git", ".vscode", ".vs", "node_modules"]

mutual
/-- One `readdir` entry of the walk: a matching file contributes its own path; a
non-ignored subdirectory contributes its recursive results (the recursive call's
entry depth check is inlined at the call site) prefixed with its name. -/
def WorkspaceManager.findFilesEntry : FsEntry → String → Nat → List FilePath'
  | .file name _, fileExtension, _ =>
    if endsWithStr name fileExtension then [[name]] else []
  | .dir name sub, fileExtension, depth =>
    if !(WorkspaceManager.ignoreFolders.contains name) then
      (if depth + 1 > WorkspaceManager.searchMaxDepth then []
       else WorkspaceManager.findFilesL sub fileExtension (depth + 1)).map
        (fun p => name :: p)
    else []
/-- The entry loop of `WorkspaceManager.findFiles`, in `readdir` order. -/
def WorkspaceManager.findFilesL : FsList → String → Nat → List FilePath'
  | .nil, _, _ => []
  | .cons e es, fileExtension, depth =>
    WorkspaceManager.findFilesEntry e fileExtension depth ++
      WorkspaceManager.findFilesL es fileExtension depth
end

/-- `WorkspaceManager.findFiles`: depth-bounded recursive search over a directory's
entries, skipping subdirectories named in `ignoreFolders`, returning (in discovery
order) the root-relative component paths of files whose name ends with
`fileExtension`. -/
def WorkspaceManager.findFiles (entries : FsList) (fileExtension : String) (depth : Nat) :
    List FilePath' :=
  if depth > WorkspaceManager.searchMaxDepth then []
  else WorkspaceManager.findFilesL entries fileExtension depth

/-- Read the file at a root-relative component path. -/
def readFile? : FsList → FilePath' → Option FileData
  | _, [] => Option.none
  | es, [n] =>
    (match es with
      | .nil => Option.none
      | .cons (.file nm c) rest => if nm = n then some c else readFile? rest [n]
      | .cons (.dir _ _) rest => readFile? rest [n])
  | es, n :: n' :: p =>
    (match es with
      | .nil => Option.none
      | .cons (.dir nm sub) rest =>
        if nm = n then readFile? sub (n' :: p) else readFile? rest (n :: n' :: p)
      | .cons (.file _ _) rest => readFile? rest (n :: n' :: p))

/-! ### `IndexManager` (packages/server/src/data-manager.ts) -/

/-- The identifier index `Map<string, string[]>`, as an association list in insertion
order. -/
abbrev IndexMap := List (String × List FilePath')

/-- `IndexManager.fileExtensions`, in declaration (iteration) order. -/
def IndexManager.fileExtensions : List String :=
  [".mod_meta_data", ".localized_text", ".uniforms", ".ability", ".action_data_source",
   ".buff", ".entity_manifest", ".exotic", ".flight_pattern", ".formation", ".npc_reward",
   ".player", ".player_color_group", ".player_icon", ".player_portrait", ".research_subject",
   ".unit_item", ".unit_skin", ".unit", ".weapon", ".named_colors", ".death_sequence",
   ".death_sequence_group", ".beam_effect", ".exhaust_trail_effect", ".particle_effect",
   ".shield_effect", ".font", ".gravity_well_props", ".button_style", ".drop_box_style",
   ".gui", ".label_style", ".list_box_style", ".reflect_box_style", ".scroll_bar_style",
   ".text_entry_box_style", ".brush", ".mesh_material", ".skybox", ".sound",
   ".texture_animation", ".gdpr_accept_data", ".playtime_message", ".welcome_message",
   ".start_mode"]

/-- The identifier `IndexManager.addToIndex` keys a file by:
`path.basename(filePath).split(".")[0]`. -/
def IndexManager.idOf (filePath : FilePath') : String := takeBeforeDot (baseNameOf filePath)

/-- `IndexManager.addToIndex(filePath)`: derive the identifier as the text before the
first `'.'` of the base name, create the entry when absent, and append the path. -/
def IndexManager.addToIndex (idx : IndexMap) (filePath : FilePath') : IndexMap :=
  let identifier := IndexManager.idOf filePath
  let idx' := if idx.any (fun e => e.1 = identifier) then idx else idx ++ [(identifier, [])]
  idx'.map (fun e => if e.1 = identifier then (e.1, e.2 ++ [filePath]) else e)

/-- The file-index portion of `IndexManager.rebuildIndex`: clear, then for every tracked
extension add every found file.  (The typed-cache loads the method then performs are
modelled separately below.) -/
def IndexManager.rebuildIndex (fs : FsList) : IndexMap :=
  IndexManager.fileExtensions.foldl
    (fun idx ext => (WorkspaceManager.findFiles fs ext 0).foldl IndexManager.addToIndex idx) []

/-- `IndexManager.getPaths(identifier)`. -/
def IndexManager.getPaths (idx : IndexMap) (identifier : String) : Option (List FilePath') :=
  idx.lookup identifier

/-! ### `EntityManifestManager` (packages/server/src/manifest.ts) -/

/-- `EntityManifestManager.loadEntityManifestIds`: find `"<kind>.entity_manifest"`, read
its first hit and parse it, returning the `ids` to store (empty when the object lacks a
truthy `ids` field).  When `findFiles` returns no path, `manifest[0]` is `undefined` and
`fs.promises.readFile(undefined)` rejects; a parse failure also rejects: both are the
`Except.error` case, which the caller's `Promise.all` propagates. -/
def EntityManifestManager.loadEntityManifestIds (fs : FsList) (entityManifest : String) :
    Except Unit (List String) :=
  match (WorkspaceManager.findFiles fs (entityManifest ++ ".entity_manifest") 0).head? with
  | Option.none => Except.error ()
  | some p =>
    match readFile? fs p with
    | Option.none => Except.error ()
    | some FileData.notJson => Except.error ()
    | some (FileData.jobj ids _) => Except.ok (ids.getD [])

/-- Apply one settled category-load task to the manifest cache: a fulfilled task has
performed its `set`, a rejected one has not. -/
def EntityManifestManager.applyLoad (m : CacheMap) (cache : String) :
    Except Unit (List String) → CacheMap
  | Except.ok ids => CacheManager.set m cache ids
  | Except.error _ => m

/-- `EntityManifestManager.loadCache`: the three category loads launched by
`Promise.all`.  Each task's only shared-state write is its own `set`, so the settled
cache is the writes of the fulfilled tasks; the combined promise rejects when any task
rejects. -/
def EntityManifestManager.loadCache (fs : FsList) (m : CacheMap) : CacheMap × Bool :=
  let rUnit := EntityManifestManager.loadEntityManifestIds fs "unit"
  let rSkin := EntityManifestManager.loadEntityManifestIds fs "unit_skin"
  let rItem := EntityManifestManager.loadEntityManifestIds fs "unit_item"
  let m1 := EntityManifestManager.applyLoad m "unit" rUnit
  let m2 := EntityManifestManager.applyLoad m1 "unit_skin" rSkin
  let m3 := EntityManifestManager.applyLoad m2 "unit_item" rItem
  (m3, rUnit.isOk && rSkin.isOk && rItem.isOk)

/-! ### The completion-side `CacheManager` and `CompletionManager` (completion.ts)

`CompletionManager`'s four loaders share one scratch `Set<string>` (`this.set`) and run
concurrently under `Promise.all`.  JavaScript's single-threaded model makes everything
between two `await`s atomic, so each loader is a sequence of atomic segments: one
segment per awaited read (which touches no shared state), then one synchronous tail
segment `add the items; setCache(category, this.set); this.set.clear()`.  A loader
whose awaited read rejects, or whose `JSON.parse` throws, exits before its tail
segment. -/

/-- `CacheManager.setCache` (completion.ts): clear the category's set, then insert every
given item. -/
def CacheManager.setCache (cache : CMCache) (c : Cat) (items : List String) : CMCache :=
  fun c' => if c' = c then fromItems items else cache c'

/-- The items `loadTextures` adds, in order: for each found `.dds` file, the bare base
name then the extension-stripped base name. -/
def CompletionManager.textureItems (fs : FsList) : List String :=
  (WorkspaceManager.findFiles fs ".dds" 0).flatMap
    (fun p => [baseNameOf p, stripExt (baseNameOf p) (extname (baseNameOf p))])

/-- The items `loadBrushes` adds: as for textures, over `.png` files. -/
def CompletionManager.brushItems (fs : FsList) : List String :=
  (WorkspaceManager.findFiles fs ".png" 0).flatMap
    (fun p => [baseNameOf p, stripExt (baseNameOf p) (extname (baseNameOf p))])

/-- The keys `loadLocalisations` inserts when `"en.localized_text"` is found and parses
(`Object.keys(content)`); `none` when the find returns nothing (so that
`readFile(localized_text[0] = undefined)` rejects) or the content fails to parse. -/
def CompletionManager.locItems? (fs : FsList) : Option (List String) :=
  match (WorkspaceManager.findFiles fs "en.localized_text" 0).head? with
  | Option.none => Option.none
  | some p =>
    match readFile? fs p with
    | some (FileData.jobj _ keys) => some keys
    | _ => Option.none

/-- The ids `loadUnitSkins` (completion.ts) inserts from `"unit_skin.entity_manifest"`;
`none` when the find returns nothing or the content fails to parse. -/
def CompletionManager.skinItems? (fs : FsList) : Option (List String) :=
  match (WorkspaceManager.findFiles fs "unit_skin.entity_manifest" 0).head? with
  | Option.none => Option.none
  | some p =>
    match readFile? fs p with
    | some (FileData.jobj ids _) => some (ids.getD [])
    | _ => Option.none

/-- One atomic segment of a loader task. -/
inductive Step where
  | read
  | commit (c : Cat) (items : List String)
deriving DecidableEq

/-- The shared state of `CompletionManager`: the scratch set `this.set` and the
completion cache. -/
structure CMState where
  shared : List String
  cache : CMCache

/-- Process-start state: empty scratch set, four empty category sets. -/
def CMState.init : CMState := ⟨[], fun _ => []⟩

/-- Execute one atomic segment.  A commit performs the loader's synchronous tail: add
its items to the shared set, copy that set into its category, clear the shared set. -/
def applyStep (st : CMState) : Step → CMState
  | .read => st
  | .commit c items =>
    let sh := items.foldl addItem st.shared
    ⟨[], fun c' => if c' = c then sh else st.cache c'⟩

/-- `loadLocalisations` as a task: two awaited reads, then the commit when both
succeeded. -/
def CompletionManager.tLocalisations (fs : FsList) : List Step :=
  [.read, .read] ++
    (match CompletionManager.locItems? fs with
      | some items => [.commit .localized_text items]
      | Option.none => [])

/-- `loadTextures` as a task: one awaited read, then the commit. -/
def CompletionManager.tTextures (fs : FsList) : List Step :=
  [.read, .commit .textures (CompletionManager.textureItems fs)]

/-- `loadBrushes` as a task: one awaited read, then the commit. -/
def CompletionManager.tBrushes (fs : FsList) : List Step :=
  [.read, .commit .brushes (CompletionManager.brushItems fs)]

/-- `loadUnitSkins` as a task: two awaited reads, then the commit when both succeeded. -/
def CompletionManager.tUnitSkins (fs : FsList) : List Step :=
  [.read, .read] ++
    (match CompletionManager.skinItems? fs with
      | some items => [.commit .unit_skins items]
      | Option.none => [])

/-- The four tasks `loadFromWorkspace` launches together with `Promise.all`. -/
def CompletionManager.loadFromWorkspaceTasks (fs : FsList) : List (List Step) :=
  [CompletionManager.tLocalisations fs, CompletionManager.tTextures fs,
   CompletionManager.tBrushes fs, CompletionManager.tUnitSkins fs]

/-- The expected settled contents of category `c`: the items derived from that
category's own source, empty when that source is missing or unparsable. -/
def cmTarget (fs : FsList) : Cat → List String
  | .textures => fromItems (CompletionManager.textureItems fs)
  | .brushes => fromItems (CompletionManager.brushItems fs)
  | .localized_text => (CompletionManager.locItems? fs).elim [] fromItems
  | .unit_skins => (CompletionManager.skinItems? fs).elim [] fromItems

/-- `Ileave ts l`: the schedule `l` is an order-preserving merge of the step sequences
`ts` — the cooperative scheduler may run any ready task at each point. -/
inductive Ileave : List (List Step) → List Step → Prop where
  | done (ts : List (List Step)) : (∀ t ∈ ts, t = []) → Ileave ts []
  | pick (pre post : List (List Step)) (t : List Step) (s : Step) (l : List Step) :
      Ileave (pre ++ t :: post) l → Ileave (pre ++ (s :: t) :: post) (s :: l)

/-- Whether a segment is the commit of category `c`. -/
def Step.isCommitFor (c : Cat) : Step → Bool
  | .commit c' _ => c' = c
  | .read => false

/-- The number of pending commits for category `c` across the remaining task steps. -/
def pendC (ts : List (List Step)) (c : Cat) : Nat :=
  (ts.map (fun t => t.countP (Step.isCommitFor c))).sum

/-- Scheduler invariant: the scratch set is empty at every suspension point, every
pending commit carries its own category's target contents, and a category with no
pending commit already holds its target. -/
def CMInv (target : Cat → List String) (st : CMState) (ts : List (List Step)) : Prop :=
  st.shared = [] ∧
  (∀ t ∈ ts, ∀ s ∈ t, ∀ c items, s = Step.commit c items → fromItems items = target c) ∧
  (∀ c : Cat, pendC ts c = 0 → st.cache c = target c)

/-! ### Typed-cache loaders over file scans (cache.ts) -/

/-- The identifier the extension-scan loaders (for example `CacheManager.loadUnits`)
derive from a found file: the base name with its final extension stripped
(`path.basename(id, path.extname(id))`). -/
def CacheManager.unitIdOf (p : FilePath') : String :=
  stripExt (baseNameOf p) (extname (baseNameOf p))

/-- `CacheManager.loadUnits` (cache.ts): scan `.unit` files and replace the `unit`
category with their extension-stripped base names. -/
def CacheManager.loadUnits (fs : FsList) (m : CacheMap) : CacheMap :=
  CacheManager.set m "unit" ((WorkspaceManager.findFiles fs ".unit" 0).map CacheManager.unitIdOf)

/-! ### The language server state and request handlers (src/unnamed/part_003) -/

/-- A completion item as assembled by `setCompletionList`/`onCompletion`: label,
replacement text and replacement range (as offsets).  The constant `kind` field is
omitted. -/
structure CompletionItemM where
  label : String
  newText : String
  range : Nat × Nat
deriving DecidableEq

/-- The mutable server fields the request handlers read. -/
structure ServerState where
  isInitialized : Bool
  currentLanguageCode : String
  fileIndex : IndexMap
  cmCache : CMCache

/-- `CompletionManager.setCompletionList`: every member of the category's cache set as
a completion item whose text edit covers the given range. -/
def CompletionManager.setCompletionList (cache : CMCache) (c : Cat) (range : Nat × Nat) :
    List CompletionItemM :=
  (cache c).map (fun e => ⟨e, e, range⟩)

/-- `onDidChangeContent`: before the server is initialized the handler returns without
validating (`none`); afterwards it validates the document and the diagnostics are
sent.  (The fire-and-forget language-code request it also issues does not affect the
diagnostics produced.) -/
def SinsLanguageServer.onDidChangeContent (st : ServerState) (schemaDiags : List Diag)
    (root : Option JsonNode) (schemas : List SchemaMatch) : Option (List Diag) :=
  if !st.isInitialized then Option.none
  else some (SinsLanguageServer.validateTextDocument schemaDiags root schemas st.cmCache)

/-- `onCompletion`: classify the node under the cursor with `getContext` and answer
from the completion cache for the wired categories (with the image-extension filter for
brushes), falling through to the collaborator's default suggestions otherwise.  The
handler performs no readiness check.  A `getContext` rejection propagates. -/
def SinsLanguageServer.onCompletion (st : ServerState) (node : Option Loc)
    (schemas : List SchemaMatch) (defaultList : Option (List CompletionItemM)) :
    Except Unit (Option (List CompletionItemM)) := do
  let context ← SinsLanguageServer.getContext node schemas
  match node with
  | some l =>
    let range := (l.offset + 1, l.offset + l.length - 1)
    match context with
    | PointerType.localized_text =>
      pure (some (CompletionManager.setCompletionList st.cmCache .localized_text range))
    | PointerType.brushes =>
      let textures := CompletionManager.setCompletionList st.cmCache .brushes range
      pure (some ((textures.filter
          (fun e => endsWithStr e.label ".dds" || endsWithStr e.label ".png")).map
        (fun e => ⟨e.label, stripExt e.label (extname e.label), range⟩)))
    | PointerType.unit_skins =>
      pure (some (CompletionManager.setCompletionList st.cmCache .unit_skins range))
    | _ => pure defaultList
  | Option.none => pure defaultList

/-! ### Invariant definitions and concrete fixtures used by the theorems -/

/-- Every index entry has a nonempty path list all of whose paths derive exactly the
entry's key. -/
def IndexInv (idx : IndexMap) : Prop :=
  ∀ kl ∈ idx, kl.2 ≠ [] ∧ ∀ q ∈ kl.2, IndexManager.idOf q = kl.1

/-- A one-property document `{"a": "x"}` (offsets as produced by the JSON parser). -/
def c2doc : JsonNode :=
  JsonNode.obj 0 12
    (JsonList.cons (JsonNode.prop 1 10 1 3 "a" (some (JsonNode.leaf 6 5 (JsonValue.vstr "x"))))
      JsonList.nil)

/-- The location of the string value `"x"` inside `c2doc`. -/
def c2loc : Loc := ⟨6, 5, Option.none, [Frame.inPropVal "a", Frame.inObj]⟩

/-- A schema match covering all of `c2doc` whose property map exists but has no entry
for `"a"`. -/
def c2match : SchemaMatch := ⟨⟨some [("b", ⟨some PointerType.brushes⟩)]⟩, (0, 12)⟩

/-- A server state as it stands while `onInitialized` is still populating the store:
not yet initialized, caches partially filled. -/
def c4state : ServerState :=
  ⟨false, "en", [("fighter", [["fighter.unit"]])],
    fun c => if c = Cat.localized_text then ["ship_name"] else []⟩

/-- The location of a string value node of a property named `"name"`. -/
def c4loc : Loc := ⟨6, 10, Option.none, [Frame.inPropVal "name", Frame.inObj]⟩

/-- A schema match covering that node and annotating `"name"` as a localized-text
pointer. -/
def c4match : SchemaMatch := ⟨⟨some [("name", ⟨some PointerType.localized_text⟩)]⟩, (0, 20)⟩

/-- A directory containing a plain file named `".git"`. -/
def c9fs : FsList := FsList.cons (FsEntry.file ".git" FileData.notJson) FsList.nil

/-- A workspace with a single `fighter.unit` file. -/
def fs7 : FsList := FsList.cons (FsEntry.file "fighter.unit" FileData.notJson) FsList.nil

/-- A workspace whose `unit.entity_manifest` parses but has no `ids` field. -/
def fsNoIds : FsList :=
  FsList.cons (FsEntry.file "unit.entity_manifest" (FileData.jobj Option.none [])) FsList.nil

/-- A workspace with `unit_skin` and `unit_item` manifests but no `unit` manifest. -/
def fsPartial : FsList :=
  FsList.cons (FsEntry.file "unit_skin.entity_manifest" (FileData.jobj (some ["fighter_skin"]) []))
    (FsList.cons (FsEntry.file "unit_item.entity_manifest" (FileData.jobj (some ["ion_cannon"]) []))
      FsList.nil)

/-- A workspace providing all four completion-cache sources. -/
def fs6 : FsList :=
  FsList.cons (FsEntry.file "en.localized_text" (FileData.jobj Option.none ["ship_name"]))
    (FsList.cons (FsEntry.file "unit_skin.entity_manifest" (FileData.jobj (some ["fighter_skin"]) []))
      (FsList.cons (FsEntry.file "a.dds" FileData.notJson)
        (FsList.cons (FsEntry.file "b.png" FileData.notJson) FsList.nil)))

/-- A (sequential) schedule of the four loader tasks over `fs6`. -/
def sched6 : List Step :=
  CompletionManager.tLocalisations fs6 ++ CompletionManager.tTextures fs6 ++
    CompletionManager.tBrushes fs6 ++ CompletionManager.tUnitSkins fs6

/-- The number of property entries of one schema match that cover `offset` and annotate
`key` as a brush pointer: `validatePointers` walks the key's nodes once per such
entry. -/
def SchemaMatch.brushAnnotationCount (m : SchemaMatch) (offset : Nat) (key : String) : Nat :=
  if JsonAST.isWithinSchemaNode offset m.node then
    ((m.schema.properties).getD []).countP
      (fun kv => decide (kv.1 = key) && decide (kv.2.pointer = some PointerType.brushes))
  else 0

/-- The number of (covering match, brush-annotated entry) pairs for `key` across all
schema matches. -/
def brushAnnotations (schemas : List SchemaMatch) (offset : Nat) (key : String) : Nat :=
  (schemas.map (fun m => SchemaMatch.brushAnnotationCount m offset key)).sum

/-- A document with surrounding content:
`{"meta": 5, "icon": "main_view_icon", "other": "y"}`. -/
def c1doc : JsonNode :=
  JsonNode.obj 0 60 (JsonList.cons
    (JsonNode.prop 1 10 1 6 "meta" (some (JsonNode.leaf 9 1 (JsonValue.vother "5"))))
    (JsonList.cons
      (JsonNode.prop 12 25 12 6 "icon"
        (some (JsonNode.leaf 20 17 (JsonValue.vstr "main_view_icon"))))
      (JsonList.cons
        (JsonNode.prop 38 12 38 7 "other" (some (JsonNode.leaf 47 3 (JsonValue.vstr "y"))))
        JsonList.nil)))

/-- Two schema matches: one covering the document, annotating `"icon"` as a brush
pointer (plus an annotation for a name not present in the document); one whose region
does not contain the property's offset. -/
def c1schemas : List SchemaMatch :=
  [⟨⟨some [("icon", ⟨some PointerType.brushes⟩),
           ("zzz", ⟨some PointerType.localized_text⟩)]⟩, (0, 60)⟩,
   ⟨⟨some [("icon", ⟨some PointerType.brushes⟩)]⟩, (100, 5)⟩]

theorem pendC_nil_of_all_nil {ts : List (List Step)} (h : ∀ t ∈ ts, t = []) (c : Cat) :
    pendC ts c = 0 := by
  unfold pendC
  induction ts with
  | nil => simp
  | cons t ts ih =>
    simp only [List.map_cons, List.sum_cons]
    rw [h t (by simp), ih (fun u hu => h u (by simp [hu]))]
    simp

theorem pendC_append_cons (pre post : List (List Step)) (t : List Step) (s : Step) (c : Cat) :
    pendC (pre ++ (s :: t) :: post) c
      = pendC (pre ++ t :: post) c + (if Step.isCommitFor c s then 1 else 0) := by
  unfold pendC
  simp only [List.map_append, List.map_cons, List.sum_append, List.sum_cons,
    List.countP_cons]
  omega

theorem cminv_preserved (target : Cat → List String) (st : CMState)
    (pre post : List (List Step)) (t : List Step) (s : Step)
    (h : CMInv target st (pre ++ (s :: t) :: post)) :
    CMInv target (applyStep st s) (pre ++ t :: post) := by
  obtain ⟨h1, h2, h3⟩ := h
  have hmem : (s :: t) ∈ pre ++ (s :: t) :: post := by simp
  have hsub : ∀ u ∈ pre ++ t :: post, ∀ x ∈ u, x ∈ (s :: t) ∨
      ∃ u' ∈ pre ++ (s :: t) :: post, x ∈ u' := by
    intro u hu x hx
    rcases List.mem_append.mp hu with hl | hr
    · exact Or.inr ⟨u, by simp [hl], hx⟩
    · rcases List.mem_cons.mp hr with rfl | hpost
      · exact Or.inl (List.mem_cons_of_mem s hx)
      · exact Or.inr ⟨u, by simp [hpost], hx⟩
  have h2' : ∀ u ∈ pre ++ t :: post, ∀ x ∈ u, ∀ c items,
      x = Step.commit c items → fromItems items = target c := by
    intro u hu x hx c items hxe
    rcases hsub u hu x hx with hin | ⟨u', hu', hx'⟩
    · exact h2 _ hmem x hin c items hxe
    · exact h2 u' hu' x hx' c items hxe
  cases s with
  | read =>
    refine ⟨h1, h2', ?_⟩
    intro c hc
    apply h3
    rw [pendC_append_cons]
    simp [Step.isCommitFor, hc]
  | commit c0 items =>
    have htgt : fromItems items = target c0 :=
      h2 _ hmem (Step.commit c0 items) (by simp) c0 items rfl
    refine ⟨rfl, h2', ?_⟩
    intro c hc
    simp only [applyStep]
    by_cases hcc : c = c0
    · subst hcc
      simp only [if_pos rfl]
      rw [h1]
      exact htgt
    · have : (if c = c0 then items.foldl addItem st.shared else st.cache c) = st.cache c := by
        simp [hcc]
      rw [this]
      apply h3
      rw [pendC_append_cons]
      have : Step.isCommitFor c (Step.commit c0 items) = false := by
        simp [Step.isCommitFor]
        intro heq
        exact absurd heq.symm hcc
      simp [this, hc]

/-- For every interleaved schedule, running from a state satisfying the invariant ends
with every category at its target and the scratch set empty. -/
theorem ileave_final (target : Cat → List String) :
    ∀ ts l, Ileave ts l → ∀ st, CMInv target st ts →
      (∀ c, (l.foldl applyStep st).cache c = target c) ∧
        (l.foldl applyStep st).shared = [] := by
  intro ts l h
  induction h with
  | done ts hts =>
    intro st hInv
    obtain ⟨h1, _, h3⟩ := hInv
    exact ⟨fun c => h3 c (pendC_nil_of_all_nil hts c), h1⟩
  | pick pre post t s l hI ih =>
    intro st hInv
    simp only [List.foldl_cons]
    exact ih (applyStep st s) (cminv_preserved target st pre post t s hInv)

/-! ### Set and cache-map lemmas -/

theorem addItem_mem (s : List String) (y x : String) :
    x ∈ addItem s y ↔ x ∈ s ∨ x = y := by
  unfold addItem
  by_cases h : y ∈ s
  · rw [if_pos (by simpa using h)]
    constructor
    · exact Or.inl
    · rintro (hx | rfl)
      · exact hx
      · exact h
  · rw [if_neg (by simpa using h)]
    simp

theorem foldl_addItem_mem (items : List String) :
    ∀ (acc : List String) (x : String),
      x ∈ items.foldl addItem acc ↔ x ∈ acc ∨ x ∈ items := by
  induction items with
  | nil => simp
  | cons y ys ih =>
    intro acc x
    simp only [List.foldl_cons]
    rw [ih, addItem_mem]
    simp only [List.mem_cons]
    tauto

theorem fromItems_mem (items : List String) (x : String) :
    x ∈ fromItems items ↔ x ∈ items := by
  unfold fromItems
  rw [foldl_addItem_mem]
  simp

theorem cacheManagerSet_any (m : CacheMap) (c : String) (items : List String) :
    (CacheManager.set m c items).any (fun e => e.1 = c) = true := by
  unfold CacheManager.set
  by_cases h : m.any (fun e => e.1 = c) = true
  · rw [if_pos h]
    simp only [List.any_eq_true, List.mem_map]
    simp only [List.any_eq_true, decide_eq_true_eq] at h
    obtain ⟨e, he, hc⟩ := h
    refine ⟨(e.1, fromItems items), ⟨e, he, by rw [if_pos hc]⟩, by simpa using hc⟩
  · rw [if_neg h]
    simp only [List.any_eq_true, List.mem_map]
    refine ⟨(c, fromItems items), ⟨(c, []), by simp, by simp⟩, by simp⟩

theorem set_def_any (M : CacheMap) (c : String) (items : List String)
    (h : M.any (fun e => e.1 = c) = true) :
    CacheManager.set M c items
      = M.map (fun e => if e.1 = c then (e.1, fromItems items) else e) := by
  unfold CacheManager.set
  rw [if_pos h]

theorem lookup_map_set (c : String) (v : List String) :
    ∀ (m : CacheMap), m.any (fun e => e.1 = c) = true →
      (m.map (fun e => if e.1 = c then (e.1, v) else e)).lookup c = some v := by
  intro m
  induction m with
  | nil => simp
  | cons e es ih =>
    intro hany
    by_cases hc : e.1 = c
    · rw [List.map_cons, if_pos hc, List.lookup]
      rw [show (c == e.1) = true from by simp [hc]]
    · rw [List.map_cons, if_neg hc, List.lookup]
      rw [show (c == e.1) = false from by simp; exact fun h => hc h.symm]
      apply ih
      simp only [List.any_cons, Bool.or_eq_true] at hany
      rcases hany with h1 | h2
      · exact absurd (by simpa using h1) hc
      · exact h2

theorem cacheManagerSet_getVal (m : CacheMap) (c : String) (items : List String) :
    CacheManager.getVal (CacheManager.set m c items) c = fromItems items := by
  have hany : (if m.any (fun e => e.1 = c) = true then m else m ++ [(c, [])]).any
      (fun e => e.1 = c) = true := by
    by_cases h : m.any (fun e => e.1 = c) = true
    · rw [if_pos h]; exact h
    · rw [if_neg h]
      simp
  unfold CacheManager.getVal CacheManager.set
  rw [lookup_map_set c (fromItems items) _ hany]
  rfl

theorem map_fix (f : String × List String → String × List String)
    (hff : ∀ e, f (f e) = f e) (m' : CacheMap) : (m'.map f).map f = m'.map f := by
  rw [List.map_map]
  exact List.map_congr_left (fun e _ => hff e)

/-- C8 — `CacheManager.set(category, items)` is a full replace and idempotent: a second
identical call changes nothing at all, and after a `set` the category's set has exactly
the members of `items`, whatever the category held before. -/
theorem cacheManager_set_idempotent (m : CacheMap) (c : String) (items : List String) :
    CacheManager.set (CacheManager.set m c items) c items = CacheManager.set m c items ∧
      ∀ x, x ∈ CacheManager.getVal (CacheManager.set m c items) c ↔ x ∈ items := by
  constructor
  · rw [set_def_any (CacheManager.set m c items) c items (cacheManagerSet_any m c items)]
    have hset : CacheManager.set m c items
        = (if m.any (fun e => e.1 = c) = true then m else m ++ [(c, [])]).map
            (fun e => if e.1 = c then (e.1, fromItems items) else e) := rfl
    rw [hset, map_fix]
    intro e
    by_cases h : e.1 = c <;> simp [h]
  · intro x
    rw [cacheManagerSet_getVal]
    exact fromItems_mem items x

/-! ### `getContext` lemmas and claims C2 and C5 -/

theorem getContextLoop_cons_skip (offset : Nat) (key : String) (m : SchemaMatch)
    (rest : List SchemaMatch) (h : JsonAST.isWithinSchemaNode offset m.node = false) :
    SinsLanguageServer.getContextLoop offset key (m :: rest)
      = SinsLanguageServer.getContextLoop offset key rest := by
  conv_lhs => rw [SinsLanguageServer.getContextLoop]
  simp only [h, Bool.not_false, if_true]

theorem getContextLoop_cons_hit (offset : Nat) (key : String) (m : SchemaMatch)
    (rest : List SchemaMatch) (props : List (String × SchemaProp)) (p : PointerType)
    (hin : JsonAST.isWithinSchemaNode offset m.node = true)
    (hprops : m.schema.properties = some props)
    (hlook : props.lookup key = some ⟨some p⟩) :
    SinsLanguageServer.getContextLoop offset key (m :: rest) = Except.ok p := by
  conv_lhs => rw [SinsLanguageServer.getContextLoop]
  simp only [hin, hprops, hlook, Bool.not_true, Bool.false_eq_true, if_false]

theorem getContext_reduce (l : Loc) (key : String) (ms : List SchemaMatch)
    (hkeynode : l.isParentKeyNode = false) (hkey : l.owningKey = some key) :
    SinsLanguageServer.getContext (some l) ms
      = SinsLanguageServer.getContextLoop l.offset key ms := by
  show (if l.isParentKeyNode = true then Except.ok PointerType.none
    else
      match l.owningKey with
      | Option.none => Except.ok PointerType.none
      | some key => SinsLanguageServer.getContextLoop l.offset key ms) = _
  rw [hkeynode, hkey]
  simp

/-- C2 — the code throws instead of degrading: with the one-property document
`{"a": "x"}` and a single schema match covering the whole document whose property map
has no entry for `"a"` (so no covering match carries a pointer annotation for the
owning property's name), `getContext` on the string value node does not return
`PointerType.none` but raises — `"pointer" in props["a"]` is the `in` operator applied
to `undefined`, a `TypeError`. -/
theorem getContext_throws_on_missing_property :
    c2loc ∈ locationsOf [] c2doc ∧
      SinsLanguageServer.getContext (some c2loc) [c2match] = Except.error () :=
  ⟨by decide, rfl⟩

/-- C5 — pointer classification is offset-sensitive: with two schema matches declaring
the same property name with different annotations, a node lying inside match `A`'s
region and outside match `B`'s classifies to `A`'s annotation in either match order;
the non-covering match is skipped. -/
theorem getContext_offset_sensitive (l : Loc) (key : String) (mA mB : SchemaMatch)
    (propsA propsB : List (String × SchemaProp)) (pA pB : PointerType)
    (hkeynode : l.isParentKeyNode = false)
    (hkey : l.owningKey = some key)
    (hinA : JsonAST.isWithinSchemaNode l.offset mA.node = true)
    (hinB : JsonAST.isWithinSchemaNode l.offset mB.node = false)
    (hpropsA : mA.schema.properties = some propsA)
    (hlookA : propsA.lookup key = some ⟨some pA⟩)
    (hpropsB : mB.schema.properties = some propsB)
    (hlookB : propsB.lookup key = some ⟨some pB⟩) :
    SinsLanguageServer.getContext (some l) [mA, mB] = Except.ok pA ∧
      SinsLanguageServer.getContext (some l) [mB, mA] = Except.ok pA := by
  constructor
  · rw [getContext_reduce l key _ hkeynode hkey,
      getContextLoop_cons_hit l.offset key mA [mB] propsA pA hinA hpropsA hlookA]
  · rw [getContext_reduce l key _ hkeynode hkey,
      getContextLoop_cons_skip l.offset key mB [mA] hinB,
      getContextLoop_cons_hit l.offset key mA [] propsA pA hinA hpropsA hlookA]

/-- Witness for C5: a concrete value node at offset 6 inside match `A`'s region
`[0, 12]` and outside match `B`'s region `[20, 30]`, where both matches annotate the
property `"a"` (as brushes and as textures respectively): classification yields
brushes in either match order. -/
theorem getContext_offset_sensitive_witness :
    SinsLanguageServer.getContext (some ⟨6, 5, Option.none, [Frame.inPropVal "a", Frame.inObj]⟩)
        [⟨⟨some [("a", ⟨some PointerType.brushes⟩)]⟩, (0, 12)⟩,
         ⟨⟨some [("a", ⟨some PointerType.textures⟩)]⟩, (20, 10)⟩] =
      Except.ok PointerType.brushes ∧
    SinsLanguageServer.getContext (some ⟨6, 5, Option.none, [Frame.inPropVal "a", Frame.inObj]⟩)
        [⟨⟨some [("a", ⟨some PointerType.textures⟩)]⟩, (20, 10)⟩,
         ⟨⟨some [("a", ⟨some PointerType.brushes⟩)]⟩, (0, 12)⟩] =
      Except.ok PointerType.brushes :=
  getContext_offset_sensitive
    ⟨6, 5, Option.none, [Frame.inPropVal "a", Frame.inObj]⟩ "a"
    ⟨⟨some [("a", ⟨some PointerType.brushes⟩)]⟩, (0, 12)⟩
    ⟨⟨some [("a", ⟨some PointerType.textures⟩)]⟩, (20, 10)⟩
    [("a", ⟨some PointerType.brushes⟩)] [("a", ⟨some PointerType.textures⟩)]
    PointerType.brushes PointerType.textures
    (by decide) (by decide) (by decide) (by decide) rfl (by decide) rfl (by decide)

/-! ### `findFiles` lemmas and claim C9 -/

theorem findFilesL_components : ∀ (entries : FsList) (ext : String) (depth : Nat)
    (p : FilePath'), p ∈ WorkspaceManager.findFilesL entries ext depth →
      p ≠ [] ∧ ∀ c ∈ p.dropLast, c ∉ WorkspaceManager.ignoreFolders
  | .nil, _, _, p, hp => by
    have hp' : p ∈ ([] : List FilePath') := hp
    simp at hp'
  | .cons (.file name content) es, ext, depth, p, hp => by
    have hp' : p ∈ (if endsWithStr name ext then [[name]] else []) ++
        WorkspaceManager.findFilesL es ext depth := hp
    by_cases hm : endsWithStr name ext = true
    · rw [if_pos hm] at hp'
      rcases List.mem_append.mp hp' with h1 | h2
      · simp only [List.mem_singleton] at h1
        subst h1
        exact ⟨by simp, by simp⟩
      · exact findFilesL_components es ext depth p h2
    · rw [if_neg hm, List.nil_append] at hp'
      exact findFilesL_components es ext depth p hp'
  | .cons (.dir name sub) es, ext, depth, p, hp => by
    have hp' : p ∈ (if !(WorkspaceManager.ignoreFolders.contains name) then
        (if depth + 1 > WorkspaceManager.searchMaxDepth then []
         else WorkspaceManager.findFilesL sub ext (depth + 1)).map (fun q => name :: q)
      else []) ++ WorkspaceManager.findFilesL es ext depth := hp
    cases hig : WorkspaceManager.ignoreFolders.contains name with
    | true =>
      simp only [hig, Bool.not_true, Bool.false_eq_true, if_false, List.nil_append] at hp'
      exact findFilesL_components es ext depth p hp'
    | false =>
      have hig' : name ∉ WorkspaceManager.ignoreFolders := by
        intro hmem
        rw [show WorkspaceManager.ignoreFolders.contains name = true from by
          simpa using hmem] at hig
        exact Bool.noConfusion hig
      simp only [hig, Bool.not_false, if_true] at hp'
      rcases List.mem_append.mp hp' with h1 | h2
      · obtain ⟨q, hq, rfl⟩ := List.mem_map.mp h1
        by_cases hd : depth + 1 > WorkspaceManager.searchMaxDepth
        · rw [if_pos hd] at hq
          simp at hq
        · rw [if_neg hd] at hq
          obtain ⟨hne, hdrop⟩ := findFilesL_components sub ext (depth + 1) q hq
          refine ⟨by simp, ?_⟩
          rw [List.dropLast_cons_of_ne_nil hne]
          intro c hc
          rcases List.mem_cons.mp hc with rfl | hc'
          · exact hig'
          · exact hdrop c hc'
      · exact findFilesL_components es ext depth p h2

/-- C9 amended — the enumerator never returns a path rooted under an ignored
subdirectory: every component of a returned path other than the final file-name
component avoids the ignored names.  (The final component itself can equal an ignored
name: the ignore set only prunes directory entries, see the counterexample.) -/
theorem findFiles_never_under_ignored (entries : FsList) (ext : String) (p : FilePath')
    (hp : p ∈ WorkspaceManager.findFiles entries ext 0) :
    p ≠ [] ∧ ∀ c ∈ p.dropLast, c ∉ WorkspaceManager.ignoreFolders := by
  have hp' : p ∈ (if 0 > WorkspaceManager.searchMaxDepth then []
      else WorkspaceManager.findFilesL entries ext 0) := hp
  rw [if_neg (by simp [WorkspaceManager.searchMaxDepth])] at hp'
  exact findFilesL_components entries ext 0 p hp'

/-- Witness for the amended C9: a file inside a non-ignored subdirectory is returned
with its directory component, which is not an ignored name. -/
theorem findFiles_never_under_ignored_witness :
    ["sub", "x.unit"] ≠ ([] : FilePath') ∧ "sub" ∉ WorkspaceManager.ignoreFolders := by
  have h := findFiles_never_under_ignored
    (FsList.cons
      (FsEntry.dir "sub" (FsList.cons (FsEntry.file "x.unit" FileData.notJson) FsList.nil))
      FsList.nil)
    ".unit" ["sub", "x.unit"] (by decide)
  exact ⟨h.1, h.2 "sub" (by decide)⟩

/-- C9 counterexample — a plain FILE named `".git"` matching the requested suffix is
returned (the ignore set is consulted only for directory entries), so a returned path
CAN have a component equal to an ignored directory name. -/
theorem findFiles_returns_ignored_named_file :
    [".git"] ∈ WorkspaceManager.findFiles c9fs ".git" 0 ∧
      ".git" ∈ WorkspaceManager.ignoreFolders := by decide

/-! ### Index invariants and claim C7 -/

theorem addToIndex_inv (idx : IndexMap) (p : FilePath') (h : IndexInv idx) :
    IndexInv (IndexManager.addToIndex idx p) := by
  intro kl hkl
  simp only [IndexManager.addToIndex] at hkl
  obtain ⟨e, he, rfl⟩ := List.mem_map.mp hkl
  have hsrc : e ∈ idx ∨ e = (IndexManager.idOf p, []) := by
    by_cases hany : idx.any (fun x => x.1 = IndexManager.idOf p) = true
    · rw [if_pos hany] at he
      exact Or.inl he
    · rw [if_neg hany] at he
      rcases List.mem_append.mp he with h1 | h2
      · exact Or.inl h1
      · exact Or.inr (by simpa using h2)
  by_cases hc : e.1 = IndexManager.idOf p
  · rw [if_pos hc]
    refine ⟨by simp, ?_⟩
    intro q hq
    rcases List.mem_append.mp hq with h1 | h2
    · rcases hsrc with hin | rfl
      · exact (h e hin).2 q h1
      · simp at h1
    · simp only [List.mem_singleton] at h2
      subst h2
      exact hc.symm
  · rw [if_neg hc]
    rcases hsrc with hin | rfl
    · exact h e hin
    · exact absurd rfl hc

theorem foldl_addToIndex_inv (files : List FilePath') :
    ∀ idx, IndexInv idx → IndexInv (files.foldl IndexManager.addToIndex idx) := by
  induction files with
  | nil => exact fun idx h => h
  | cons f fs ih => exact fun idx h => ih _ (addToIndex_inv idx f h)

theorem foldl_exts_inv (exts : List String) (fs : FsList) :
    ∀ idx, IndexInv idx → IndexInv (exts.foldl
      (fun idx ext =>
        (WorkspaceManager.findFiles fs ext 0).foldl IndexManager.addToIndex idx) idx) := by
  induction exts with
  | nil => exact fun idx h => h
  | cons e es ih =>
    intro idx h
    exact ih _ (foldl_addToIndex_inv _ _ h)

theorem rebuildIndex_inv (fs : FsList) : IndexInv (IndexManager.rebuildIndex fs) := by
  unfold IndexManager.rebuildIndex
  exact foldl_exts_inv _ fs [] (fun kl hkl => by simp at hkl)

/-- C7 — after `rebuildIndex`, every identifier key in the index maps to a nonempty path
list, at least one member of which (in fact all) derives exactly that key (text before
the first dot of the base name). -/
theorem rebuildIndex_keys_derived (fs : FsList) (key : String) (paths : List FilePath')
    (h : (key, paths) ∈ IndexManager.rebuildIndex fs) :
    paths ≠ [] ∧ ∃ p ∈ paths, IndexManager.idOf p = key := by
  have hinv := rebuildIndex_inv fs (key, paths) h
  refine ⟨hinv.1, ?_⟩
  obtain ⟨p, hp⟩ := List.exists_mem_of_ne_nil paths hinv.1
  exact ⟨p, hp, hinv.2 p hp⟩

/-- Witness for C7: the workspace `{fighter.unit}` indexes under `"fighter"`, with the
derived identifier of the single stored path equal to the key. -/
theorem rebuildIndex_keys_derived_witness :
    ([["fighter.unit"]] : List FilePath') ≠ [] ∧
      IndexManager.idOf ["fighter.unit"] = "fighter" := by
  have h := rebuildIndex_keys_derived fs7 "fighter" [["fighter.unit"]] (by decide)
  exact ⟨h.1, by decide⟩

/-! ### Manifest load failure policy: claim C3 -/

/-- C3 counterexample — with no manifest file in the workspace at all, the category load
REJECTS (it reads `manifest[0] = undefined`) instead of yielding an empty set, and the
joint `loadCache`'s `Promise.all` rejects with it, raising the failure to the caller. -/
theorem missing_manifest_rejects :
    EntityManifestManager.loadEntityManifestIds FsList.nil "unit" = Except.error () ∧
      (EntityManifestManager.loadCache FsList.nil []).2 = false := ⟨rfl, rfl⟩

/-- C3 amended — the `ids`-missing half of the claim holds: a manifest that parses but
lacks `ids` yields an empty set with no error.  But a MISSING manifest file makes the
category load reject, and `loadCache` (`Promise.all`) propagates that rejection to its
caller; the other categories' writes still take effect and the failing category's cache
entry is left untouched. -/
theorem entityManifest_failure_policy :
    (∀ (fs : FsList) (kind : String) (p : FilePath') (keys : List String),
      (WorkspaceManager.findFiles fs (kind ++ ".entity_manifest") 0).head? = some p →
      readFile? fs p = some (FileData.jobj Option.none keys) →
      EntityManifestManager.loadEntityManifestIds fs kind = Except.ok []) ∧
    (∀ (fs : FsList) (kind : String),
      WorkspaceManager.findFiles fs (kind ++ ".entity_manifest") 0 = [] →
      EntityManifestManager.loadEntityManifestIds fs kind = Except.error ()) ∧
    (∀ (fs : FsList) (m : CacheMap) (ls li : List String),
      EntityManifestManager.loadEntityManifestIds fs "unit" = Except.error () →
      EntityManifestManager.loadEntityManifestIds fs "unit_skin" = Except.ok ls →
      EntityManifestManager.loadEntityManifestIds fs "unit_item" = Except.ok li →
      EntityManifestManager.loadCache fs m
        = (CacheManager.set (CacheManager.set m "unit_skin" ls) "unit_item" li, false)) := by
  refine ⟨?_, ?_, ?_⟩
  · intro fs kind p keys h1 h2
    simp only [EntityManifestManager.loadEntityManifestIds, h1, h2]
    rfl
  · intro fs kind h1
    simp only [EntityManifestManager.loadEntityManifestIds, h1]
    rfl
  · intro fs m ls li h1 h2 h3
    simp only [EntityManifestManager.loadCache, h1, h2, h3,
      EntityManifestManager.applyLoad, Except.isOk]
    rfl

/-- Witness for the amended C3: a no-`ids` manifest loads an empty set; an empty
workspace rejects; a workspace with only the `unit_skin`/`unit_item` manifests settles
with those two categories written, the `unit` category untouched, and the joint load
rejected. -/
theorem entityManifest_failure_policy_witness :
    EntityManifestManager.loadEntityManifestIds fsNoIds "unit" = Except.ok [] ∧
    EntityManifestManager.loadEntityManifestIds FsList.nil "unit" = Except.error () ∧
    EntityManifestManager.loadCache fsPartial []
      = (CacheManager.set (CacheManager.set [] "unit_skin" ["fighter_skin"]) "unit_item"
          ["ion_cannon"], false) :=
  ⟨entityManifest_failure_policy.1 fsNoIds "unit" ["unit.entity_manifest"] []
      (by decide) (by decide),
   entityManifest_failure_policy.2.1 FsList.nil "unit" (by decide),
   entityManifest_failure_policy.2.2 fsPartial [] ["fighter_skin"] ["ion_cannon"]
      rfl rfl rfl⟩

/-! ### The ready gate: claim C4 -/

/-- C4 amended — only validation is gated: `onDidChangeContent` returns without reading
anything while `isInitialized` is false, but `onCompletion` (like the hover and
definition handlers) performs no readiness check at all — its answer is entirely
independent of the `isInitialized` flag, so it reads the store even before the first
rebuild completes. -/
theorem ready_gate_only_validation :
    (∀ (st : ServerState) (sd : List Diag) (root : Option JsonNode)
        (schemas : List SchemaMatch),
      st.isInitialized = false →
        SinsLanguageServer.onDidChangeContent st sd root schemas = Option.none) ∧
    (∀ (st : ServerState) (b : Bool) (node : Option Loc) (schemas : List SchemaMatch)
        (dl : Option (List CompletionItemM)),
      SinsLanguageServer.onCompletion { st with isInitialized := b } node schemas dl
        = SinsLanguageServer.onCompletion st node schemas dl) := by
  constructor
  · intro st sd root schemas h
    unfold SinsLanguageServer.onDidChangeContent
    rw [h]
    rfl
  · intro st b node schemas dl
    rfl

/-- Witness for the amended C4: the gate suppresses validation on the concrete
uninitialized state, and flipping the flag does not change a completion answer. -/
theorem ready_gate_only_validation_witness :
    SinsLanguageServer.onDidChangeContent c4state [] Option.none [] = Option.none ∧
      SinsLanguageServer.onCompletion { c4state with isInitialized := true }
          Option.none [] Option.none
        = SinsLanguageServer.onCompletion c4state Option.none [] Option.none :=
  ⟨ready_gate_only_validation.1 c4state [] Option.none [] rfl,
   ready_gate_only_validation.2 c4state true Option.none [] Option.none⟩

/-- C4 counterexample — a completion request arriving while `isInitialized` is still
false (the store mid-population) is answered with data read from the store, not
deferred and not empty: the claim's ready gate does not exist for completion. -/
theorem completion_answers_before_ready :
    c4state.isInitialized = false ∧
      SinsLanguageServer.onCompletion c4state (some c4loc) [c4match] Option.none
        = Except.ok (some [⟨"ship_name", "ship_name", (7, 15)⟩]) := ⟨rfl, rfl⟩

/-! ### Concurrent category population: claim C6 -/

theorem cminv_init (fs : FsList) :
    CMInv (cmTarget fs) CMState.init (CompletionManager.loadFromWorkspaceTasks fs) := by
  refine ⟨rfl, ?_, ?_⟩
  · intro t ht s hs c items hse
    subst hse
    simp only [CompletionManager.loadFromWorkspaceTasks, List.mem_cons,
      List.not_mem_nil, or_false] at ht
    rcases ht with rfl | rfl | rfl | rfl
    · unfold CompletionManager.tLocalisations at hs
      cases hL : CompletionManager.locItems? fs with
      | none => rw [hL] at hs; simp at hs
      | some items0 =>
        rw [hL] at hs
        simp at hs
        obtain ⟨rfl, rfl⟩ := hs
        simp [cmTarget, hL]
    · unfold CompletionManager.tTextures at hs
      simp at hs
      obtain ⟨rfl, rfl⟩ := hs
      simp [cmTarget]
    · unfold CompletionManager.tBrushes at hs
      simp at hs
      obtain ⟨rfl, rfl⟩ := hs
      simp [cmTarget]
    · unfold CompletionManager.tUnitSkins at hs
      cases hS : CompletionManager.skinItems? fs with
      | none => rw [hS] at hs; simp at hs
      | some items0 =>
        rw [hS] at hs
        simp at hs
        obtain ⟨rfl, rfl⟩ := hs
        simp [cmTarget, hS]
  · intro c hc
    cases hL : CompletionManager.locItems? fs <;>
      cases hS : CompletionManager.skinItems? fs <;>
        cases c <;>
          simp [pendC, CompletionManager.loadFromWorkspaceTasks,
            CompletionManager.tLocalisations, CompletionManager.tTextures,
            CompletionManager.tBrushes, CompletionManager.tUnitSkins,
            Step.isCommitFor, hL, hS, List.countP_cons, List.countP_nil,
            cmTarget, CMState.init] at hc ⊢

/-- C6 — the four `loadFromWorkspace` loader tasks write only to their own disjoint
categories: under EVERY interleaved schedule of their atomic segments, the settled
completion cache holds, per category, exactly the items derived from that category's
own source (empty when that source is missing), with the shared scratch set empty —
no cross-contamination between categories. -/
theorem loadFromWorkspace_disjoint_categories (fs : FsList) (l : List Step)
    (h : Ileave (CompletionManager.loadFromWorkspaceTasks fs) l) :
    (∀ c, (l.foldl applyStep CMState.init).cache c = cmTarget fs c) ∧
      (l.foldl applyStep CMState.init).shared = [] :=
  ileave_final (cmTarget fs) _ l h CMState.init (cminv_init fs)

/-- Witness for C6: a concrete four-source workspace under a concrete schedule of the
four tasks settles with each category holding exactly its own source's items. -/
theorem loadFromWorkspace_disjoint_categories_witness :
    Ileave (CompletionManager.loadFromWorkspaceTasks fs6) sched6 ∧
      (sched6.foldl applyStep CMState.init).cache Cat.localized_text = ["ship_name"] ∧
      (sched6.foldl applyStep CMState.init).cache Cat.unit_skins = ["fighter_skin"] ∧
      (sched6.foldl applyStep CMState.init).cache Cat.textures = ["a.dds", "a"] := by
  have hI : Ileave (CompletionManager.loadFromWorkspaceTasks fs6) sched6 := by
    show Ileave
      [[Step.read, Step.read, Step.commit Cat.localized_text ["ship_name"]],
       [Step.read, Step.commit Cat.textures ["a.dds", "a"]],
       [Step.read, Step.commit Cat.brushes ["b.png", "b"]],
       [Step.read, Step.read, Step.commit Cat.unit_skins ["fighter_skin"]]]
      [Step.read, Step.read, Step.commit Cat.localized_text ["ship_name"],
       Step.read, Step.commit Cat.textures ["a.dds", "a"],
       Step.read, Step.commit Cat.brushes ["b.png", "b"],
       Step.read, Step.read, Step.commit Cat.unit_skins ["fighter_skin"]]
    refine Ileave.pick [] _ _ _ _ ?_
    refine Ileave.pick [] _ _ _ _ ?_
    refine Ileave.pick [] _ _ _ _ ?_
    refine Ileave.pick [[]] _ _ _ _ ?_
    refine Ileave.pick [[]] _ _ _ _ ?_
    refine Ileave.pick [[], []] _ _ _ _ ?_
    refine Ileave.pick [[], []] _ _ _ _ ?_
    refine Ileave.pick [[], [], []] _ _ _ _ ?_
    refine Ileave.pick [[], [], []] _ _ _ _ ?_
    refine Ileave.pick [[], [], []] _ _ _ _ ?_
    exact Ileave.done _ (by decide)
  have h := loadFromWorkspace_disjoint_categories fs6 sched6 hI
  refine ⟨hI, ?_, ?_, ?_⟩
  · rw [h.1 Cat.localized_text]; rfl
  · rw [h.1 Cat.unit_skins]; rfl
  · rw [h.1 Cat.textures]; rfl

/-! ### The validator round-trip: claim C1 -/

theorem vp_schemas_cons (root : Option JsonNode) (cache : CMCache) (m : SchemaMatch)
    (rest : List SchemaMatch) :
    SinsLanguageServer.validatePointers root (m :: rest) cache
      = SinsLanguageServer.validatePointers root [m] cache ++
          SinsLanguageServer.validatePointers root rest cache := by
  simp [SinsLanguageServer.validatePointers]

theorem vp_single_match (root : Option JsonNode) (cache : CMCache)
    (po pl ko kl o l : Nat) (k X : String) (mnode : Nat × Nat)
    (hfk : JsonAST.findNodesRoot k root
      = [JsonNode.prop po pl ko kl k (some (JsonNode.leaf o l (JsonValue.vstr X)))]) :
    ∀ props : List (String × SchemaProp),
      (∀ kv ∈ props, kv.1 = k →
        kv.2.pointer = Option.none ∨ kv.2.pointer = some PointerType.brushes) →
      (∀ kv ∈ props, kv.1 ≠ k →
        kv.2.pointer = Option.none ∨ JsonAST.findNodesRoot kv.1 root = []) →
      SinsLanguageServer.validatePointers root [⟨⟨some props⟩, mnode⟩] cache
        = if (cache Cat.brushes).contains X = true then []
          else List.replicate
            (SchemaMatch.brushAnnotationCount ⟨⟨some props⟩, mnode⟩ po k)
            ⟨o, o + l, brushMsg X⟩ := by
  intro props
  induction props with
  | nil =>
    intro _ _
    simp [SinsLanguageServer.validatePointers, SchemaMatch.brushAnnotationCount]
  | cons kv kvs ih =>
    intro hbrush hother
    have ih' := ih (fun e he hk => hbrush e (List.mem_cons_of_mem kv he) hk)
      (fun e he hk => hother e (List.mem_cons_of_mem kv he) hk)
    simp only [SinsLanguageServer.validatePointers, List.flatMap_cons, List.flatMap_nil,
      List.append_nil] at ih' ⊢
    rw [ih']
    have hcnt : SchemaMatch.brushAnnotationCount ⟨⟨some (kv :: kvs)⟩, mnode⟩ po k
        = SchemaMatch.brushAnnotationCount ⟨⟨some kvs⟩, mnode⟩ po k
          + (if JsonAST.isWithinSchemaNode po mnode
              && (decide (kv.1 = k) && decide (kv.2.pointer = some PointerType.brushes))
            then 1 else 0) := by
      simp only [SchemaMatch.brushAnnotationCount, Option.getD_some, List.countP_cons]
      cases hc : JsonAST.isWithinSchemaNode po mnode <;> simp
    rw [hcnt]
    cases hptr : kv.2.pointer with
    | none =>
      cases hX : (cache Cat.brushes).contains X <;> simp [hptr, hX]
    | some ptr =>
      by_cases hkey : kv.1 = k
      · have hbr := hbrush kv (List.mem_cons_self kv kvs) hkey
        rw [hptr] at hbr
        have hptr' : ptr = PointerType.brushes := by
          rcases hbr with h | h
          · exact absurd h (by simp)
          · simpa using h
        subst hptr'
        rw [hkey]
        simp only [hptr, hfk, List.flatMap_cons, List.flatMap_nil, List.append_nil,
          JsonNode.offset, JsonNode.propValueNode, SinsLanguageServer.walkValueNode]
        cases hcov : JsonAST.isWithinSchemaNode po mnode with
        | false =>
          cases hX : (cache Cat.brushes).contains X <;>
            simp [hcov, hX, hptr]
        | true =>
          have hwalk : SinsLanguageServer.walk cache PointerType.brushes
              (JsonNode.leaf o l (JsonValue.vstr X))
            = if (cache Cat.brushes).contains X = true then []
              else [⟨o, o + l, brushMsg X⟩] := by
            simp [SinsLanguageServer.walk, JsonNode.jsValue, JsonNode.offset, JsonNode.length,
              SinsLanguageServer.checkValue, hasVal, JsonValue.render]
          rw [hwalk]
          cases hX : (cache Cat.brushes).contains X with
          | true => simp [hcov, hX, hptr]
          | false => simp [hcov, hX, hptr, List.replicate_succ]
      · have hot := hother kv (List.mem_cons_self kv kvs) hkey
        rw [hptr] at hot
        have hfind : JsonAST.findNodesRoot kv.1 root = [] := by
          rcases hot with h | h
          · exact absurd h (by simp)
          · exact h
        cases hX : (cache Cat.brushes).contains X <;>
          simp [hptr, hfind, hX, hkey]

theorem vp_one_match (root : Option JsonNode) (cache : CMCache)
    (po pl ko kl o l : Nat) (k X : String) (m : SchemaMatch)
    (hfk : JsonAST.findNodesRoot k root
      = [JsonNode.prop po pl ko kl k (some (JsonNode.leaf o l (JsonValue.vstr X)))])
    (hbrush : ∀ kv ∈ (m.schema.properties).getD [], kv.1 = k →
      kv.2.pointer = Option.none ∨ kv.2.pointer = some PointerType.brushes)
    (hother : ∀ kv ∈ (m.schema.properties).getD [], kv.1 ≠ k →
      kv.2.pointer = Option.none ∨ JsonAST.findNodesRoot kv.1 root = []) :
    SinsLanguageServer.validatePointers root [m] cache
      = if (cache Cat.brushes).contains X = true then []
        else List.replicate (SchemaMatch.brushAnnotationCount m po k)
          ⟨o, o + l, brushMsg X⟩ := by
  obtain ⟨⟨props?⟩, mnode⟩ := m
  cases props? with
  | none =>
    cases hX : (cache Cat.brushes).contains X <;>
      simp [SinsLanguageServer.validatePointers, SchemaMatch.brushAnnotationCount, hX]
  | some props =>
    exact vp_single_match root cache po pl ko kl o l k X mnode hfk props
      (by simpa using hbrush) (by simpa using hother)

theorem vp_all_matches (root : Option JsonNode) (cache : CMCache)
    (po pl ko kl o l : Nat) (k X : String)
    (hfk : JsonAST.findNodesRoot k root
      = [JsonNode.prop po pl ko kl k (some (JsonNode.leaf o l (JsonValue.vstr X)))]) :
    ∀ schemas : List SchemaMatch,
      (∀ m ∈ schemas, ∀ kv ∈ (m.schema.properties).getD [], kv.1 = k →
        kv.2.pointer = Option.none ∨ kv.2.pointer = some PointerType.brushes) →
      (∀ m ∈ schemas, ∀ kv ∈ (m.schema.properties).getD [], kv.1 ≠ k →
        kv.2.pointer = Option.none ∨ JsonAST.findNodesRoot kv.1 root = []) →
      SinsLanguageServer.validatePointers root schemas cache
        = if (cache Cat.brushes).contains X = true then []
          else List.replicate (brushAnnotations schemas po k) ⟨o, o + l, brushMsg X⟩ := by
  intro schemas
  induction schemas with
  | nil =>
    intro _ _
    cases hX : (cache Cat.brushes).contains X <;>
      simp [SinsLanguageServer.validatePointers, brushAnnotations, hX]
  | cons m rest ih =>
    intro hbrush hother
    rw [vp_schemas_cons,
      vp_one_match root cache po pl ko kl o l k X m hfk
        (hbrush m (List.mem_cons_self m rest)) (hother m (List.mem_cons_self m rest)),
      ih (fun m' hm' => hbrush m' (List.mem_cons_of_mem m hm'))
        (fun m' hm' => hother m' (List.mem_cons_of_mem m hm'))]
    have hsum : brushAnnotations (m :: rest) po k
        = SchemaMatch.brushAnnotationCount m po k + brushAnnotations rest po k := by
      simp [brushAnnotations]
    rw [hsum]
    cases hX : (cache Cat.brushes).contains X with
    | true => simp [hX]
    | false =>
      simp only [hX, Bool.false_eq_true, if_false]
      exact (List.replicate_add _ _ _).symm

/-- C1 counterexample — "exactly one such diagnostic" fails: with TWO schema matches
covering the property and both annotating it as a brush pointer, `validatePointers`
iterates all matches and pushes TWO identical missing-texture diagnostics for the one
value node. -/
theorem validatePointers_duplicate_annotation_two_diagnostics :
    SinsLanguageServer.validatePointers
        (some (JsonNode.obj 0 30 (JsonList.cons (JsonNode.prop 1 27 1 6 "icon"
          (some (JsonNode.leaf 9 17 (JsonValue.vstr "main_view_icon")))) JsonList.nil)))
        [⟨⟨some [("icon", ⟨some PointerType.brushes⟩)]⟩, (0, 30)⟩,
         ⟨⟨some [("icon", ⟨some PointerType.brushes⟩)]⟩, (0, 30)⟩]
        (fun _ => [])
      = [⟨9, 9 + 17, brushMsg "main_view_icon"⟩, ⟨9, 9 + 17, brushMsg "main_view_icon"⟩] ∧
    (SinsLanguageServer.validatePointers
        (some (JsonNode.obj 0 30 (JsonList.cons (JsonNode.prop 1 27 1 6 "icon"
          (some (JsonNode.leaf 9 17 (JsonValue.vstr "main_view_icon")))) JsonList.nil)))
        [⟨⟨some [("icon", ⟨some PointerType.brushes⟩)]⟩, (0, 30)⟩,
         ⟨⟨some [("icon", ⟨some PointerType.brushes⟩)]⟩, (0, 30)⟩]
        (fun _ => [])).length ≠ 1 :=
  ⟨rfl, by decide⟩

/-- C1 amended — validator round-trip, for ANY document whose sole property named `k`
is a brush/texture pointer with string value `X` (and in which no other
pointer-annotated property name occurs), under ANY list of schema matches: when `X` is
in the brush/texture cache no diagnostic is produced; when `X` is absent, the pass
produces one "no texture found" diagnostic at the value node's original range PER
(covering match, brush-annotated entry) pair — in particular exactly one when exactly
one covering match annotates the property. -/
theorem validatePointers_texture_roundtrip (root : Option JsonNode)
    (schemas : List SchemaMatch) (cache : CMCache)
    (po pl ko kl o l : Nat) (k X : String)
    (hfk : JsonAST.findNodesRoot k root
      = [JsonNode.prop po pl ko kl k (some (JsonNode.leaf o l (JsonValue.vstr X)))])
    (hbrush : ∀ m ∈ schemas, ∀ kv ∈ (m.schema.properties).getD [], kv.1 = k →
      kv.2.pointer = Option.none ∨ kv.2.pointer = some PointerType.brushes)
    (hother : ∀ m ∈ schemas, ∀ kv ∈ (m.schema.properties).getD [], kv.1 ≠ k →
      kv.2.pointer = Option.none ∨ JsonAST.findNodesRoot kv.1 root = []) :
    ((cache Cat.brushes).contains X = true →
      SinsLanguageServer.validatePointers root schemas cache = []) ∧
    ((cache Cat.brushes).contains X = false →
      SinsLanguageServer.validatePointers root schemas cache
        = List.replicate (brushAnnotations schemas po k) ⟨o, o + l, brushMsg X⟩) ∧
    (brushAnnotations schemas po k = 1 → (cache Cat.brushes).contains X = false →
      SinsLanguageServer.validatePointers root schemas cache = [⟨o, o + l, brushMsg X⟩]) := by
  have h := vp_all_matches root cache po pl ko kl o l k X hfk schemas hbrush hother
  refine ⟨?_, ?_, ?_⟩
  · intro hX
    rw [h, if_pos hX]
  · intro hX
    rw [h, if_neg (by rw [hX]; exact fun he => Bool.noConfusion he)]
  · intro hn hX
    rw [h, if_neg (by rw [hX]; exact fun he => Bool.noConfusion he), hn]
    rfl

/-- Witness for the amended C1: the three-property document `c1doc` under the two
matches of `c1schemas` (one covering annotation): no diagnostic with the value cached,
exactly one at the value node's range `[20, 37]` with it absent. -/
theorem validatePointers_texture_roundtrip_witness :
    SinsLanguageServer.validatePointers (some c1doc) c1schemas
        (fun c => if c = Cat.brushes then ["main_view_icon"] else []) = [] ∧
    SinsLanguageServer.validatePointers (some c1doc) c1schemas (fun _ => [])
      = List.replicate (brushAnnotations c1schemas 12 "icon")
          ⟨20, 20 + 17, brushMsg "main_view_icon"⟩ ∧
    SinsLanguageServer.validatePointers (some c1doc) c1schemas (fun _ => [])
      = [⟨20, 20 + 17, brushMsg "main_view_icon"⟩] := by
  have hfk : JsonAST.findNodesRoot "icon" (some c1doc)
      = [JsonNode.prop 12 25 12 6 "icon" (some (JsonNode.leaf 20 17
          (JsonValue.vstr "main_view_icon")))] := rfl
  have hbrush : ∀ m ∈ c1schemas, ∀ kv ∈ (m.schema.properties).getD [], kv.1 = "icon" →
      kv.2.pointer = Option.none ∨ kv.2.pointer = some PointerType.brushes := by decide
  have hother : ∀ m ∈ c1schemas, ∀ kv ∈ (m.schema.properties).getD [], kv.1 ≠ "icon" →
      kv.2.pointer = Option.none ∨ JsonAST.findNodesRoot kv.1 (some c1doc) = [] := by
    intro m hm kv hkv hne
    fin_cases hm
    · simp only [Option.getD_some, List.mem_cons, List.not_mem_nil, or_false] at hkv
      rcases hkv with rfl | rfl
      · exact absurd rfl hne
      · exact Or.inr rfl
    · simp only [Option.getD_some, List.mem_cons, List.not_mem_nil, or_false] at hkv
      rcases hkv with rfl
      exact absurd rfl hne
  refine ⟨?_, ?_, ?_⟩
  · exact (validatePointers_texture_roundtrip (some c1doc) c1schemas
      (fun c => if c = Cat.brushes then ["main_view_icon"] else []) 12 25 12 6 20 17 "icon"
      "main_view_icon" hfk hbrush hother).1 (by decide)
  · exact (validatePointers_texture_roundtrip (some c1doc) c1schemas (fun _ => [])
      12 25 12 6 20 17 "icon" "main_view_icon" hfk hbrush hother).2.1 rfl
  · exact (validatePointers_texture_roundtrip (some c1doc) c1schemas (fun _ => [])
      12 25 12 6 20 17 "icon" "main_view_icon" hfk hbrush hother).2.2 (by decide) rfl

/-! ### Identifier derivations disagree: claim C10 -/

theorem fromLastDot_eq_none {b : List Char} (h : '.' ∉ b) : fromLastDot b = Option.none := by
  induction b with
  | nil => rfl
  | cons c cs ih =>
    rw [fromLastDot, ih (fun hm => h (List.mem_cons_of_mem c hm))]
    exact if_neg (fun hc => h (by rw [← hc]; exact List.mem_cons_self c cs))

theorem fromLastDot_last_dot (b : List Char) (hb : '.' ∉ b) :
    ∀ a : List Char, fromLastDot (a ++ '.' :: b) = some ('.' :: b) := by
  intro a
  induction a with
  | nil =>
    rw [List.nil_append, fromLastDot, fromLastDot_eq_none hb, if_pos rfl]
  | cons c cs ih =>
    rw [List.cons_append, fromLastDot, ih]

theorem extname_of_unit_suffix (name : String) (pre : List Char)
    (hd : name.data = pre ++ '.' :: ['u', 'n', 'i', 't']) :
    extname name = if pre = [] then "" else ⟨'.' :: ['u', 'n', 'i', 't']⟩ := by
  unfold extname
  rw [hd, fromLastDot_last_dot _ (by decide) pre]
  show (if ('.' :: ['u', 'n', 'i', 't']).length = (pre ++ '.' :: ['u', 'n', 'i', 't']).length
    then "" else ⟨'.' :: ['u', 'n', 'i', 't']⟩) = _
  rw [List.length_append]
  by_cases hp : pre = []
  · subst hp
    simp
  · rw [if_neg (by
      simp only [List.length_cons, List.length_nil]
      intro hlen
      exact hp (List.length_eq_zero.mp (by omega))), if_neg hp]

theorem stripExt_of_unit_suffix (name : String) (pre : List Char) (hpre : pre ≠ [])
    (hd : name.data = pre ++ '.' :: ['u', 'n', 'i', 't']) :
    stripExt name ⟨'.' :: ['u', 'n', 'i', 't']⟩ = ⟨pre⟩ := by
  unfold stripExt
  rw [if_pos ?cond]
  case cond =>
    refine ⟨?_, ?_, ?_⟩
    · intro h
      have := congrArg String.data h
      simp at this
    · show List.isSuffixOf ('.' :: ['u', 'n', 'i', 't']) name.data = true
      rw [List.isSuffixOf_iff_suffix]
      exact ⟨pre, hd.symm⟩
    · show ('.' :: ['u', 'n', 'i', 't']).length < name.data.length
      rw [hd, List.length_append]
      simp only [List.length_cons, List.length_nil]
      have : 0 < pre.length := List.length_pos.mpr hpre
      omega
  · show String.mk (name.data.take (name.data.length - ('.' :: ['u', 'n', 'i', 't']).length))
      = String.mk pre
    congr 1
    rw [hd, List.length_append]
    simp only [List.length_cons, List.length_nil]
    have h5 : pre.length + (4 + 1) - (4 + 1) = pre.length := by omega
    rw [h5]
    exact List.take_left pre _

theorem takeBeforeDot_of_no_dot (name : String) (pre : List Char)
    (hd : name.data = pre ++ '.' :: ['u', 'n', 'i', 't']) (hnd : '.' ∉ pre) :
    takeBeforeDot name = ⟨pre⟩ := by
  unfold takeBeforeDot
  rw [hd, List.takeWhile_append_of_pos (by
    intro a ha
    simp only [decide_eq_true_eq]
    exact fun h => hnd (h ▸ ha))]
  rw [List.takeWhile_cons_of_neg (by simp)]
  simp

theorem takeBeforeDot_of_dot (name : String) (pre : List Char)
    (hd : name.data = pre ++ '.' :: ['u', 'n', 'i', 't']) (hdot : '.' ∈ pre) :
    (takeBeforeDot name).data = pre.takeWhile (fun c => decide (c ≠ '.')) := by
  unfold takeBeforeDot
  show name.data.takeWhile (fun c => decide (c ≠ '.'))
    = pre.takeWhile (fun c => decide (c ≠ '.'))
  rw [hd, List.takeWhile_append, if_neg ?hlen]
  case hlen =>
    intro hlen
    have hpref : pre.takeWhile (fun c => decide (c ≠ '.')) = pre :=
      (List.takeWhile_prefix _).eq_of_length hlen
    have h2 := List.takeWhile_eq_self_iff.mp hpref '.' hdot
    simp at h2

/-- C10 amended — (1) for a file name ending in `".unit"`, the extension-scan cache
identifier (`basename` minus `extname`, as `loadUnits` inserts) and the index
identifier (text before the FIRST dot, as `addToIndex` derives) coincide exactly when
the base name contains a single dot AND does not begin with a dot (for the hidden-file
name `".unit"` itself Node's `extname` is empty, so the two differ even with a single
dot); with more than one dot they always differ.  (2) Identifier Index keys never
contain a dot at all, so any cache identifier containing a dot (such as `"a.b"` from
`"a.b.unit"`) has no entry in the index. -/
theorem unitId_vs_indexId :
    (∀ name : String, endsWithStr name ".unit" = true →
      (CacheManager.unitIdOf [name] = IndexManager.idOf [name] ↔
        (name.data.count '.' = 1 ∧ name.data.head? ≠ some '.'))) ∧
    (∀ (fs : FsList) (key : String) (paths : List FilePath'),
      (key, paths) ∈ IndexManager.rebuildIndex fs → '.' ∉ key.data) := by
  constructor
  · intro name hend
    have hsuf : (".unit" : String).data <:+ name.data := by
      unfold endsWithStr at hend
      exact List.isSuffixOf_iff_suffix.mp hend
    obtain ⟨pre, hpre⟩ := hsuf
    have hd : name.data = pre ++ '.' :: ['u', 'n', 'i', 't'] := by
      rw [← hpre]
    have hu : CacheManager.unitIdOf [name] = stripExt name (extname name) := rfl
    have hi : IndexManager.idOf [name] = takeBeforeDot name := rfl
    rw [hu, hi]
    have hcount : name.data.count '.' = pre.count '.' + 1 := by
      rw [hd, List.count_append,
        show List.count '.' ['.', 'u', 'n', 'i', 't'] = 1 from by decide]
    by_cases hp : pre = []
    · subst hp
      rw [List.nil_append] at hd
      constructor
      · intro heq
        exfalso
        rw [extname_of_unit_suffix name [] (by rw [hd]; rfl), if_pos rfl] at heq
        rw [takeBeforeDot_of_no_dot name [] (by rw [hd]; rfl) (by simp)] at heq
        rw [show stripExt name "" = name from by unfold stripExt; rw [if_neg (by simp)]] at heq
        have := congrArg String.data heq
        rw [hd] at this
        simp at this
      · rintro ⟨h1, h2⟩
        exfalso
        exact h2 (by rw [hd]; rfl)
    · by_cases hdot : '.' ∈ pre
      · have hne : stripExt name (extname name) ≠ takeBeforeDot name := by
          rw [extname_of_unit_suffix name pre hd, if_neg hp,
            stripExt_of_unit_suffix name pre hp hd]
          intro heq
          have hdata := congrArg String.data heq
          rw [takeBeforeDot_of_dot name pre hd hdot] at hdata
          have hself : pre.takeWhile (fun c => decide (c ≠ '.')) = pre := hdata.symm
          have h2 := List.takeWhile_eq_self_iff.mp hself '.' hdot
          simp at h2
        have hcnt : ¬ name.data.count '.' = 1 := by
          rw [hcount]
          have : 0 < pre.count '.' := List.count_pos_iff.mpr hdot
          omega
        constructor
        · intro h
          exact absurd h hne
        · rintro ⟨h1, _⟩
          exact absurd h1 hcnt
      · have heq : stripExt name (extname name) = takeBeforeDot name := by
          rw [extname_of_unit_suffix name pre hd, if_neg hp,
            stripExt_of_unit_suffix name pre hp hd,
            takeBeforeDot_of_no_dot name pre hd hdot]
        obtain ⟨c, cs, rfl⟩ := List.exists_cons_of_ne_nil hp
        refine iff_of_true heq ⟨?_, ?_⟩
        · rw [hcount, List.count_eq_zero.mpr hdot]
        · rw [hd]
          intro hh
          simp only [List.cons_append, List.head?_cons, Option.some.injEq] at hh
          exact hdot (by rw [hh]; exact List.mem_cons_self _ _)
  · intro fs key paths hmem hdot
    have hinv := rebuildIndex_inv fs (key, paths) hmem
    obtain ⟨p, hp⟩ := List.exists_mem_of_ne_nil paths hinv.1
    have hkey : IndexManager.idOf p = key := hinv.2 p hp
    rw [← hkey] at hdot
    have hdot' : '.' ∈ (baseNameOf p).data.takeWhile (fun c => decide (c ≠ '.')) := hdot
    have := List.mem_takeWhile_imp hdot'
    simp at this

/-- C10 counterexample — the claim's "coincide exactly when the base name contains a
single dot" fails at the name `".unit"`: one dot, yet the cache identifier is
`".unit"` while the index identifier is `""`. -/
theorem unitId_vs_indexId_counterexample :
    endsWithStr ".unit" ".unit" = true ∧ (".unit" : String).data.count '.' = 1 ∧
      CacheManager.unitIdOf [".unit"] ≠ IndexManager.idOf [".unit"] := by decide

/-- Witness for the amended C10: at `"a.unit"` the two identifiers coincide and the
right-hand side holds; and the concrete index key `"fighter"` of the one-file
workspace is dot-free. -/
theorem unitId_vs_indexId_witness :
    (CacheManager.unitIdOf ["a.unit"] = IndexManager.idOf ["a.unit"] ↔
      (("a.unit" : String).data.count '.' = 1 ∧ ("a.unit" : String).data.head? ≠ some '.')) ∧
    ('.' ∉ ("fighter" : String).data) :=
  ⟨unitId_vs_indexId.1 "a.unit" (by decide),
   unitId_vs_indexId.2 fs7 "fighter" [["fighter.unit"]] (by decide)⟩
end SINS
